import Mathlib

/-!
# ssl_explorer: a verification development

A shallow embedding of `ssl_explorer.go` and the properties proved about it.

Conventions of the embedding

* A Go `string` is a Lean `String`; byte-wise operations of the `strings`
  package are expressed on the character list `String.data`.
* A Go `map[string]bool` is an association list with pairwise distinct keys.
  Go leaves the iteration order of `range` over a map unspecified, so every
  function that ranges over a map takes the order chosen by the runtime as a
  parameter (`RangeOrder`), constrained only to be a permutation of the keys.
* `client.Get`, `os.Open` and `bufio.Scanner` are library calls whose results
  are inputs of the embedded functions.
* Output effects (`fmt.Printf`, sends on the `records` channel) are returned as
  lists, in program order.
-/

set_option autoImplicit false

namespace SslExplorer

/-! ## `strings` helpers -/

/-- Go `strings.HasSuffix(s, suffix)`. -/
def HasSuffix (s suffix : String) : Bool :=
  suffix.data.isSuffixOf s.data

/-- Go `strings.TrimSuffix(s, suffix)`: when `s` ends with `suffix` the result is
`s[:len(s)-len(suffix)]`, otherwise `s` itself. -/
def TrimSuffix (s suffix : String) : String :=
  if HasSuffix s suffix then
    String.mk (s.data.take (s.data.length - suffix.data.length))
  else s

/-- Go `strings.Join(elems, sep)`. -/
def Join (elems : List String) (sep : String) : String :=
  match elems with
  | [] => ""
  | e :: rest => rest.foldl (fun acc x => acc ++ sep ++ x) e

/-! ## `cleanURL` (lines 17-19) -/

/-- Source `cleanURL`: `strings.TrimSuffix(url, ",")`. -/
def cleanURL (url : String) : String :=
  TrimSuffix url ","

/-! ## Go maps (`map[string]bool`) -/

/-- A Go `map[string]bool` as an association list. Every map built with
`GoMap.set` from `GoMap.empty` has pairwise distinct keys. -/
abbrev GoMap := List (String × Bool)

/-- The literal `map[string]bool{}`. -/
def GoMap.empty : GoMap := []

/-- The assignment `m[k] = v`: overwrite the entry of `k` when there is one,
otherwise add a new entry. -/
def GoMap.set : GoMap → String → Bool → GoMap
  | [], k, v => [(k, v)]
  | (k0, v0) :: rest, k, v =>
    if k0 = k then (k, v) :: rest else (k0, v0) :: GoMap.set rest k v

/-- The builtin `delete(m, k)`. -/
def GoMap.delete (m : GoMap) (k : String) : GoMap :=
  m.filter (fun e => decide (e.1 ≠ k))

/-- The keys present in the map. -/
def GoMap.keys (m : GoMap) : List String :=
  m.map Prod.fst

/-- The order in which one `for k := range m` statement visits the keys of a
map. The Go specification leaves it unspecified and the runtime randomises it,
so it is an input of every function that ranges over a map. -/
abbrev RangeOrder := List String → List String

/-- A range order visits every key of the map exactly once. -/
def IsRangeOrder (ro : RangeOrder) : Prop :=
  ∀ keys : List String, (ro keys).Perm keys

/-! ## Certificates and the result of the HTTP request -/

/-- The fields of `x509.Certificate` the program reads. -/
structure Certificate where
  /-- Field `cert.Subject.CommonName`. -/
  CommonName : String
  /-- Field `cert.DNSNames`. -/
  DNSNames : List String
  deriving DecidableEq, Repr

/-- The field of `tls.ConnectionState` the program reads. -/
structure ConnectionState where
  /-- Field `PeerCertificates`. -/
  PeerCertificates : List Certificate
  deriving DecidableEq, Repr

/-- The field of `http.Response` the program reads; `none` is a nil `resp.TLS`. -/
structure Response where
  /-- Field `resp.TLS`. -/
  TLS : Option ConnectionState
  deriving DecidableEq, Repr

/-- The pair `(resp, err)` returned by `client.Get(url)`; `none` is nil and an
error is represented by its message. -/
structure GetResult where
  /-- First result of `client.Get`. -/
  resp : Option Response
  /-- Second result of `client.Get`. -/
  err : Option String
  deriving DecidableEq, Repr

/-- What a call of `getCertInfo` does: return `(state, err)`, or run into the
nil dereference of `resp.Body` when `client.Get` gave neither a response nor an
error. -/
inductive CertInfoResult where
  | returned (state : Option ConnectionState) (err : Option String)
  | nilDeref
  deriving DecidableEq, Repr

/-! ## The client of lines 46-56 -/

/-- What one request of the client did on the wire. -/
structure RequestAttempt where
  /-- The state of the TLS connection, when a TLS handshake completed. -/
  handshake : Option ConnectionState
  /-- The error that ended the HTTP exchange; `none` when a response was read. -/
  failure : Option String
  deriving DecidableEq, Repr

/-- The pair `(resp, err)` that `client.Get` returns for the client of lines
46-56, by the contract of `net/http`: a failed request gives a nil response and
the error, a request that read a response gives it with a nil error, its `TLS`
field being the state of the connection. A response together with an error is
returned only when `CheckRedirect` fails, and the `CheckRedirect` of lines 53-55
returns `http.ErrUseLastResponse` only, for which the response comes with a nil
error. -/
def clientGetResult (a : RequestAttempt) : GetResult :=
  match a.failure with
  | some err => { resp := none, err := some err }
  | none => { resp := some { TLS := a.handshake }, err := none }

/-! ## `getCertInfo` (lines 45-68) -/

/-- Source `getCertInfo`, lines 58-67; `clientGet` is `client.Get` of the
client configured on lines 46-56. -/
def getCertInfo (clientGet : String → GetResult) (url : String) : CertInfoResult :=
  let r := clientGet url
  match r.err with
  | some err =>
    match r.resp with
    | some resp =>
      match resp.TLS with
      | some tls => CertInfoResult.returned (some tls) none
      | none => CertInfoResult.returned none (some err)
    | none => CertInfoResult.returned none (some err)
  | none =>
    match r.resp with
    | some resp => CertInfoResult.returned resp.TLS none
    | none => CertInfoResult.nilDeref

/-! ## `processURL` (lines 70-99) -/

/-- The observable effects of one call of `processURL`. -/
structure Effects where
  /-- The strings written by `fmt.Printf`, in order. -/
  printed : List String
  /-- The values sent on the `records` channel, in order. -/
  pushed : List (List String)
  /-- Whether the call ended in a run-time panic. -/
  panicked : Bool
  deriving DecidableEq, Repr

/-- Lines 82-95 of `processURL`: the slice `uniqueSANs` built from the leaf
certificate. `ro` is the order of the `range names` loop of line 93. -/
def uniqueSANs (ro : RangeOrder) (cert : Certificate) : List String :=
  let names : GoMap :=
    cert.DNSNames.foldl (fun m dnsName => GoMap.set m dnsName true) GoMap.empty
  let names := GoMap.delete names cert.CommonName
  (ro (GoMap.keys names)).foldl (fun acc name => acc ++ [name]) []

/-- Lines 81-97 of `processURL`: the record sent for a leaf certificate. -/
def certRecord (ro : RangeOrder) (cleanedURL : String) (cert : Certificate) : List String :=
  [cleanedURL, cert.CommonName, Join (uniqueSANs ro cert) "\n"]

/-- Source `processURL`, lines 74-98. The deferred `<-sem` and `wg.Done()` are
part of the dispatcher model below. -/
def processURL (clientGet : String → GetResult) (ro : RangeOrder) (url : String) : Effects :=
  let cleanedURL := cleanURL url
  match getCertInfo clientGet cleanedURL with
  | CertInfoResult.nilDeref => { printed := [], pushed := [], panicked := true }
  | CertInfoResult.returned _ (some err) =>
    { printed := ["Error processing URL " ++ cleanedURL ++ ": " ++ err ++ "\n"],
      pushed := [], panicked := false }
  | CertInfoResult.returned (some certInfo) none =>
    match certInfo.PeerCertificates with
    | cert :: _ =>
      { printed := [], pushed := [certRecord ro cleanedURL cert], panicked := false }
    | [] => { printed := [], pushed := [], panicked := false }
  | CertInfoResult.returned none none => { printed := [], pushed := [], panicked := false }

/-! ## `extractURLs` (lines 21-43) -/

/-- The Perl class `\s` of Go's `regexp` syntax: `[\t\n\f\r ]`. -/
def isSpaceClass (c : Char) : Bool :=
  c = '\t' || c = '\n' || c = '\x0c' || c = '\r' || c = ' '

/-- The literal part `https://` of the pattern. -/
def urlLiteral : List Char := "https://".data

/-- A match of the pattern `https://[^\s]+` that starts at the first character
of `s`: the literal, then the greedy, non-empty run of characters outside `\s`. -/
def matchHere (s : List Char) : Option (List Char) :=
  if urlLiteral.isPrefixOf s then
    match (s.drop urlLiteral.length).takeWhile (fun c => !isSpaceClass c) with
    | [] => none
    | c :: run => some (urlLiteral ++ c :: run)
  else none

/-- The leftmost match of `https://[^\s]+` in `s`, as `regexp` finds it: the
start positions are tried from left to right. -/
def findMatch : List Char → Option (List Char)
  | [] => none
  | c :: cs =>
    match matchHere (c :: cs) with
    | some m => some m
    | none => findMatch cs

/-- The call `urlRegex.MatchString(line)`. -/
def MatchString (line : String) : Bool :=
  (findMatch line.data).isSome

/-- The call `urlRegex.FindString(line)`: the text of the leftmost match, or the
empty string when there is none. -/
def FindString (line : String) : String :=
  match findMatch line.data with
  | some m => String.mk m
  | none => ""

/-- What `bufio.Scanner` yields for an opened file: the successive values of
`scanner.Text()` and the final value of `scanner.Err()`. -/
structure ScannedFile where
  /-- The lines returned by `scanner.Text()`, in file order. -/
  lines : List String
  /-- The value of `scanner.Err()` after the loop. -/
  scanErr : Option String
  deriving DecidableEq, Repr

/-- Lines 28-36 of `extractURLs`: the scan loop over the lines. -/
def scanLoop (lines : List String) : List String :=
  lines.foldl
    (fun urls line => if MatchString line then urls ++ [FindString line] else urls) []

/-- Source `extractURLs`; `osOpen` is `os.Open` followed by the scanner, an
`Except.error` being the error of `os.Open`. -/
def extractURLs (osOpen : String → Except String ScannedFile) (filename : String) :
    Except String (List String) :=
  match osOpen filename with
  | Except.error err => Except.error err
  | Except.ok file =>
    let urls := scanLoop file.lines
    match file.scanErr with
    | some err => Except.error err
    | none => Except.ok urls

/-! ## The dispatcher goroutine of `main` (lines 130-142) and the deferred calls of
`processURL` (lines 71-72) -/

/-- Where a launched `processURL` goroutine stands. -/
inductive TaskPhase where
  /-- Started by `go processURL`; the deferred `<-sem` has not run yet. -/
  | running
  /-- The deferred `<-sem` has run; the deferred `wg.Done()` has not. -/
  | released
  /-- The deferred `wg.Done()` has run: the goroutine is over. -/
  | exited
  deriving DecidableEq, Repr

/-- The program counter of the anonymous dispatcher goroutine (lines 134-142). -/
inductive DispatchPC where
  /-- At the head of the `for _, url := range urls` loop. -/
  | loopHead
  /-- After `wg.Add(1)`, before `sem <- true`. -/
  | added (url : String)
  /-- After `sem <- true`, before `go processURL(url, ...)`. -/
  | acquired (url : String)
  /-- After the loop, at `wg.Wait()`. -/
  | waiting
  /-- After `wg.Wait()`, before `close(records)`. -/
  | closing
  /-- After `close(records)`. -/
  | finished
  deriving DecidableEq, Repr

/-- The state shared by the dispatcher goroutine and the tasks it launched. -/
structure DispatchState where
  /-- The URLs the loop has not taken yet. -/
  pending : List String
  /-- The program counter of the dispatcher goroutine. -/
  pc : DispatchPC
  /-- The number of values buffered in the channel `sem`. -/
  sem : Nat
  /-- The counter of the wait group `wg`. -/
  wg : Nat
  /-- The goroutines launched so far, in launch order. -/
  tasks : List (String × TaskPhase)
  /-- Whether `records` has been closed. -/
  closed : Bool
  deriving DecidableEq, Repr

/-- The scheduler's choice: run the next statement of the dispatcher goroutine,
or the next deferred call of the `i`-th launched task. -/
inductive Action where
  | dispatcher
  | task (i : Nat)
  deriving DecidableEq, Repr

/-- The state in which the dispatcher goroutine starts: `sem` is the empty
channel made on line 131. -/
def initState (urls : List String) : DispatchState :=
  { pending := urls, pc := DispatchPC.loopHead, sem := 0, wg := 0, tasks := [], closed := false }

/-- One step of the dispatcher system for a buffered channel `sem` of capacity
`threads` (at least 1): a send succeeds when fewer than `threads` values are
buffered, a receive when at least one is. The result is `none` when the chosen
goroutine is blocked or over. -/
def step (threads : Nat) (s : DispatchState) : Action → Option DispatchState
  | Action.dispatcher =>
    match s.pc with
    | DispatchPC.loopHead =>
      match s.pending with
      | url :: rest => some { s with pending := rest, pc := DispatchPC.added url, wg := s.wg + 1 }
      | [] => some { s with pc := DispatchPC.waiting }
    | DispatchPC.added url =>
      if s.sem < threads then some { s with pc := DispatchPC.acquired url, sem := s.sem + 1 }
      else none
    | DispatchPC.acquired url =>
      some { s with pc := DispatchPC.loopHead, tasks := s.tasks ++ [(url, TaskPhase.running)] }
    | DispatchPC.waiting =>
      if s.wg = 0 then some { s with pc := DispatchPC.closing } else none
    | DispatchPC.closing => some { s with pc := DispatchPC.finished, closed := true }
    | DispatchPC.finished => none
  | Action.task i =>
    match s.tasks.get? i with
    | some (url, TaskPhase.running) =>
      if 0 < s.sem then
        some { s with sem := s.sem - 1, tasks := s.tasks.set i (url, TaskPhase.released) }
      else none
    | some (url, TaskPhase.released) =>
      some { s with wg := s.wg - 1, tasks := s.tasks.set i (url, TaskPhase.exited) }
    | some (_, TaskPhase.exited) => none
    | none => none

/-- Run a schedule from a state. -/
def runSchedule (threads : Nat) : DispatchState → List Action → Option DispatchState
  | s, [] => some s
  | s, a :: rest =>
    match step threads s a with
    | some t => runSchedule threads t rest
    | none => none

/-- The states the dispatcher system can reach from its start. -/
def Reachable (threads : Nat) (urls : List String) (s : DispatchState) : Prop :=
  ∃ schedule : List Action, runSchedule threads (initState urls) schedule = some s

/-- The number of `processURL` tasks in flight: launched, and not yet through
the deferred `<-sem` that ends their work. -/
def inFlight (s : DispatchState) : Nat :=
  s.tasks.countP (fun t => decide (t.2 = TaskPhase.running))

/-! ## Predicates used to state the properties -/

/-- The result of the HTTP request carries no TLS connection state: the
response is absent, or its `TLS` field is nil. -/
def noTLSState (r : GetResult) : Bool :=
  match r.resp with
  | none => true
  | some resp => resp.TLS.isNone

/-- The diagnostic printed on line 77 for a cleaned URL and an error. -/
def errorLine (cleanedURL err : String) : String :=
  "Error processing URL " ++ cleanedURL ++ ": " ++ err ++ "\n"

/-- Exactly one outcome, in the sense of the specification: exactly one record
pushed and nothing logged, or a failure logged and no record pushed. -/
def exactlyOneOutcome (e : Effects) : Bool :=
  (e.pushed.length == 1 && e.printed.isEmpty) || (e.pushed.isEmpty && !e.printed.isEmpty)

/-- The pattern `https://[^\s]+` matches in `line` right after the characters
`pre`: the literal `https://` stands there, followed by at least one character
outside `\s`. -/
def MatchesAfter (pre line : List Char) : Prop :=
  ∃ c rest, line = pre ++ (urlLiteral ++ c :: rest) ∧ isSpaceClass c = false

/-- The line contains `https://` followed by at least one non-whitespace
character. -/
def HasMatch (line : List Char) : Prop :=
  ∃ pre, MatchesAfter pre line

/-- The text `m` is the leftmost match in `line`, extended over the maximal run
of non-whitespace characters: `line = pre ++ "https://" ++ run ++ rest` where
`run` is non-empty and free of whitespace, `rest` is empty or starts with a
whitespace character, and no match starts before `pre` ends. -/
def IsLeftmostMatch (line m : List Char) : Prop :=
  ∃ pre run rest, line = pre ++ (urlLiteral ++ (run ++ rest)) ∧ run ≠ [] ∧
    (∀ c ∈ run, isSpaceClass c = false) ∧
    (∀ c tl, rest = c :: tl → isSpaceClass c = true) ∧
    (∀ pre2, MatchesAfter pre2 line → pre.length ≤ pre2.length) ∧
    m = urlLiteral ++ run

/-- The URL sequence the specification asks for: in line order, the leftmost
match of every line that has a match, and nothing for every other line. -/
inductive ExtractedFrom : List String → List String → Prop where
  | done : ExtractedFrom [] []
  | hit (line m : String) (lines urls : List String) :
      IsLeftmostMatch line.data m.data → ExtractedFrom lines urls →
      ExtractedFrom (line :: lines) (m :: urls)
  | skip (line : String) (lines urls : List String) :
      ¬ HasMatch line.data → ExtractedFrom lines urls →
      ExtractedFrom (line :: lines) urls

/-- The permit the dispatcher goroutine has put into `sem` for a task it has
not launched yet: 1 between `sem <- true` and `go processURL`, else 0. -/
def permitInHand (pc : DispatchPC) : Nat :=
  match pc with
  | DispatchPC.acquired _ => 1
  | _ => 0

/-- The invariant of the dispatcher system: every value buffered in `sem`
belongs to a task in flight or to the launch in progress, and `sem` holds at
most `threads` values. -/
def DispatchInv (threads : Nat) (s : DispatchState) : Prop :=
  inFlight s + permitInHand s.pc = s.sem ∧ s.sem ≤ threads

/-! # Theorems -/

/-! ## Facts about the `strings` helpers -/

theorem HasSuffix_iff (s t : String) : HasSuffix s t = true ↔ t.data <:+ s.data := by
  unfold HasSuffix
  exact List.isSuffixOf_iff_suffix

theorem HasSuffix_append (s t : String) : HasSuffix (s ++ t) t = true := by
  rw [HasSuffix_iff]
  exact ⟨s.data, by simp⟩

theorem TrimSuffix_append (s t : String) : TrimSuffix (s ++ t) t = s := by
  unfold TrimSuffix
  rw [if_pos (HasSuffix_append s t)]
  cases s with
  | mk l => simp

theorem TrimSuffix_of_not (s t : String) (h : HasSuffix s t = false) : TrimSuffix s t = s := by
  unfold TrimSuffix
  simp [h]

theorem exists_append_of_HasSuffix (s t : String) (h : HasSuffix s t = true) :
    ∃ y : String, s = y ++ t := by
  rw [HasSuffix_iff] at h
  obtain ⟨l, hl⟩ := h
  refine ⟨String.mk l, ?_⟩
  apply String.ext
  simp [hl]

theorem cleanURL_append_comma (s : String) : cleanURL (s ++ ",") = s :=
  TrimSuffix_append s ","

theorem cleanURL_of_not_comma (s : String) (h : HasSuffix s "," = false) : cleanURL s = s :=
  TrimSuffix_of_not s "," h

theorem HasSuffix_two_commas (y : String) :
    HasSuffix (y ++ ",") ",," = HasSuffix y "," := by
  have h2 : (",," : String).data = [','] ++ [','] := rfl
  have h1 : ("," : String).data = [','] := rfl
  rw [Bool.eq_iff_iff, HasSuffix_iff, HasSuffix_iff]
  constructor
  · rintro ⟨l, hl⟩
    refine ⟨l, ?_⟩
    have h3 : (l ++ [',']) ++ [','] = y.data ++ [','] := by
      simpa using hl
    exact List.append_cancel_right h3
  · rintro ⟨l, hl⟩
    refine ⟨l, ?_⟩
    rw [h2, ← List.append_assoc]
    rw [h1] at hl
    simp [hl]

theorem not_two_commas_of_not_comma (x : String) (h : HasSuffix x "," = false) :
    HasSuffix x ",," = false := by
  have h2 : (",," : String).data = [','] ++ [','] := rfl
  have h1 : ("," : String).data = [','] := rfl
  by_contra hc
  rw [Bool.not_eq_false, HasSuffix_iff] at hc
  obtain ⟨l, hl⟩ := hc
  have h3 : HasSuffix x "," = true := by
    rw [HasSuffix_iff]
    refine ⟨l ++ [','], ?_⟩
    rw [← hl, h2, h1]
    simp
  rw [h] at h3
  exact Bool.noConfusion h3

/-! ## Claims about `cleanURL` -/

/-- Claim C3, as the code has it: `cleanURL` removes one trailing comma only, so
cleaning a second time changes nothing exactly when the input does not end with
two commas. -/
theorem cleanURL_idempotent_iff (x : String) :
    cleanURL (cleanURL x) = cleanURL x ↔ HasSuffix x ",," = false := by
  cases hx : HasSuffix x "," with
  | false =>
    have h1 : cleanURL x = x := cleanURL_of_not_comma x hx
    rw [h1, h1]
    simp [not_two_commas_of_not_comma x hx]
  | true =>
    obtain ⟨y, rfl⟩ := exists_append_of_HasSuffix x "," hx
    rw [cleanURL_append_comma, HasSuffix_two_commas]
    cases hy : HasSuffix y "," with
    | false =>
      simp [cleanURL_of_not_comma y hy]
    | true =>
      obtain ⟨z, rfl⟩ := exists_append_of_HasSuffix y "," hy
      rw [cleanURL_append_comma]
      refine ⟨fun h => ?_, fun hf => Bool.noConfusion hf⟩
      exfalso
      have hlen := congrArg String.length h
      rw [String.length_append] at hlen
      have hone : (",").length = 1 := by decide
      omega

/-- Claim C3 fails as stated: for `x = "a,,"` cleaning once gives `"a,"` and
cleaning twice gives `"a"`, so `cleanURL` is not idempotent on every string. -/
theorem cleanURL_not_idempotent :
    ¬ (∀ x : String, cleanURL (cleanURL x) = cleanURL x) := by
  intro h
  exact absurd (h "a,,") (by decide)

/-- Claim C5: for a string `s` that does not end with a comma,
`cleanURL (s ++ ",") = cleanURL s = s`; in particular
`cleanURL "https://a.example," = cleanURL "https://a.example"` and cleaning
`"https://good.example/path,"` gives `"https://good.example/path"`. -/
theorem cleanURL_strips_trailing_comma (s : String) (h : HasSuffix s "," = false) :
    (cleanURL (s ++ ",") = cleanURL s ∧ cleanURL s = s) ∧
    cleanURL "https://a.example," = cleanURL "https://a.example" ∧
    cleanURL "https://good.example/path," = "https://good.example/path" := by
  refine ⟨⟨?_, cleanURL_of_not_comma s h⟩, by decide, by decide⟩
  rw [cleanURL_append_comma, cleanURL_of_not_comma s h]

/-- Witness of `cleanURL_strips_trailing_comma` at `"https://good.example/path"`. -/
theorem cleanURL_strips_trailing_comma_witness :
    HasSuffix "https://good.example/path" "," = false ∧
    cleanURL ("https://good.example/path" ++ ",") = "https://good.example/path" ∧
    cleanURL "https://good.example/path" = "https://good.example/path" :=
  ⟨by decide,
   ((cleanURL_strips_trailing_comma "https://good.example/path" (by decide)).1.1).trans
     (cleanURL_strips_trailing_comma "https://good.example/path" (by decide)).1.2,
   (cleanURL_strips_trailing_comma "https://good.example/path" (by decide)).1.2⟩

/-! ## Facts about Go maps -/

theorem GoMap.mem_keys_set (m : GoMap) (k : String) (v : Bool) (n : String) :
    n ∈ GoMap.keys (GoMap.set m k v) ↔ n = k ∨ n ∈ GoMap.keys m := by
  induction m with
  | nil => simp [GoMap.set, GoMap.keys]
  | cons e rest ih =>
    obtain ⟨k0, v0⟩ := e
    unfold GoMap.set
    by_cases hk : k0 = k
    · subst hk
      simp [GoMap.keys]
    · rw [if_neg hk]
      have ih2 : n ∈ List.map Prod.fst (GoMap.set rest k v) ↔ n = k ∨ n ∈ List.map Prod.fst rest := ih
      simp only [GoMap.keys, List.map_cons, List.mem_cons, ih2]
      tauto

theorem GoMap.nodup_keys_set (m : GoMap) (k : String) (v : Bool)
    (h : (GoMap.keys m).Nodup) : (GoMap.keys (GoMap.set m k v)).Nodup := by
  induction m with
  | nil => simp [GoMap.set, GoMap.keys]
  | cons e rest ih =>
    obtain ⟨k0, v0⟩ := e
    have hcons : k0 ∉ GoMap.keys rest ∧ (GoMap.keys rest).Nodup := by
      simpa [GoMap.keys] using h
    unfold GoMap.set
    by_cases hk : k0 = k
    · subst hk
      rw [if_pos rfl]
      simpa [GoMap.keys] using h
    · rw [if_neg hk]
      have hmem := GoMap.mem_keys_set rest k v k0
      have hnot : k0 ∉ GoMap.keys (GoMap.set rest k v) := by
        rw [hmem]
        rintro (h1 | h1)
        · exact hk h1
        · exact hcons.1 h1
      have hnd := ih hcons.2
      show (k0 :: GoMap.keys (GoMap.set rest k v)).Nodup
      exact List.nodup_cons.mpr ⟨hnot, hnd⟩

theorem GoMap.keys_delete (m : GoMap) (k : String) :
    GoMap.keys (GoMap.delete m k) = (GoMap.keys m).filter (fun n => decide (n ≠ k)) := by
  induction m with
  | nil => rfl
  | cons e rest ih =>
    obtain ⟨k0, v0⟩ := e
    have ih2 : List.map Prod.fst (List.filter (fun e => decide (e.1 ≠ k)) rest)
        = List.filter (fun n => decide (n ≠ k)) (List.map Prod.fst rest) := ih
    by_cases hk : k0 = k
    · simp only [GoMap.keys, GoMap.delete, List.filter_cons, List.map_cons]
      simpa [hk] using ih2
    · simp only [GoMap.keys, GoMap.delete, List.filter_cons, List.map_cons]
      simpa [hk] using ih2

theorem GoMap.keys_foldl_set (l : List String) (m : GoMap) (h : (GoMap.keys m).Nodup) :
    (GoMap.keys (l.foldl (fun m dnsName => GoMap.set m dnsName true) m)).Nodup ∧
    ∀ n, n ∈ GoMap.keys (l.foldl (fun m dnsName => GoMap.set m dnsName true) m)
      ↔ n ∈ GoMap.keys m ∨ n ∈ l := by
  induction l generalizing m with
  | nil => simp [h]
  | cons a rest ih =>
    have hstep := ih (GoMap.set m a true) (GoMap.nodup_keys_set m a true h)
    refine ⟨hstep.1, fun n => ?_⟩
    rw [List.foldl_cons, hstep.2 n, GoMap.mem_keys_set, List.mem_cons]
    tauto

theorem foldl_append_singleton (l acc : List String) :
    l.foldl (fun acc name => acc ++ [name]) acc = acc ++ l := by
  induction l generalizing acc with
  | nil => simp
  | cons a rest ih => rw [List.foldl_cons, ih]; simp

/-! ## Facts about the extraction step of `processURL` -/

theorem uniqueSANs_perm (ro : RangeOrder) (cert : Certificate) (hro : IsRangeOrder ro) :
    (uniqueSANs ro cert).Perm
      ((GoMap.keys (cert.DNSNames.foldl (fun m dnsName => GoMap.set m dnsName true)
        GoMap.empty)).filter (fun n => decide (n ≠ cert.CommonName))) := by
  unfold uniqueSANs
  simp only [foldl_append_singleton, List.nil_append]
  rw [← GoMap.keys_delete]
  exact hro _

theorem uniqueSANs_nodup (ro : RangeOrder) (cert : Certificate) (hro : IsRangeOrder ro) :
    (uniqueSANs ro cert).Nodup := by
  rw [(uniqueSANs_perm ro cert hro).nodup_iff]
  exact ((GoMap.keys_foldl_set cert.DNSNames GoMap.empty (by simp [GoMap.empty, GoMap.keys])).1).filter _

theorem mem_uniqueSANs (ro : RangeOrder) (cert : Certificate) (hro : IsRangeOrder ro)
    (n : String) :
    n ∈ uniqueSANs ro cert ↔ n ∈ cert.DNSNames ∧ n ≠ cert.CommonName := by
  rw [(uniqueSANs_perm ro cert hro).mem_iff, List.mem_filter,
    (GoMap.keys_foldl_set cert.DNSNames GoMap.empty (by simp [GoMap.empty, GoMap.keys])).2 n]
  simp [GoMap.empty, GoMap.keys]

theorem processURL_pushed_of_leaf (clientGet : String → GetResult) (ro : RangeOrder)
    (url : String) (cs : ConnectionState) (cert : Certificate) (rest : List Certificate)
    (hfetch : getCertInfo clientGet (cleanURL url) = CertInfoResult.returned (some cs) none)
    (hleaf : cs.PeerCertificates = cert :: rest) :
    processURL clientGet ro url =
      { printed := [],
        pushed := [[cleanURL url, cert.CommonName, Join (uniqueSANs ro cert) "\n"]],
        panicked := false } := by
  unfold processURL
  simp only [hfetch, hleaf, certRecord]

/-! ## Claims about the SAN names of a record -/

/-- Claim C1: when the fetch yields a connection state whose first peer
certificate is `cert`, `processURL` pushes the record
`[cleaned URL, common name, joined SAN names]` and the SAN names joined into it
do not include the common name, whatever the DNS-name list is; for common name
`"api.example.com"` and DNS names `["api.example.com", "www.example.com"]` the
SAN field is `"www.example.com"`. -/
theorem processURL_san_excludes_common_name
    (clientGet : String → GetResult) (ro : RangeOrder) (url : String)
    (cs : ConnectionState) (cert : Certificate) (rest : List Certificate)
    (hro : IsRangeOrder ro)
    (hfetch : getCertInfo clientGet (cleanURL url) = CertInfoResult.returned (some cs) none)
    (hleaf : cs.PeerCertificates = cert :: rest) :
    (processURL clientGet ro url).pushed =
        [[cleanURL url, cert.CommonName, Join (uniqueSANs ro cert) "\n"]] ∧
    cert.CommonName ∉ uniqueSANs ro cert ∧
    Join (uniqueSANs ro
      { CommonName := "api.example.com",
        DNSNames := ["api.example.com", "www.example.com"] }) "\n" = "www.example.com" := by
  refine ⟨?_, ?_, ?_⟩
  · rw [processURL_pushed_of_leaf clientGet ro url cs cert rest hfetch hleaf]
  · intro hmem
    exact ((mem_uniqueSANs ro cert hro _).mp hmem).2 rfl
  · have hperm := uniqueSANs_perm ro
      { CommonName := "api.example.com",
        DNSNames := ["api.example.com", "www.example.com"] } hro
    have hkeys : (GoMap.keys (List.foldl (fun m dnsName => GoMap.set m dnsName true)
        GoMap.empty ["api.example.com", "www.example.com"])).filter
          (fun n => decide (n ≠ "api.example.com")) = ["www.example.com"] := by decide
    simp only [hkeys] at hperm
    rw [List.perm_singleton.mp hperm]
    decide

/-- Witness of `processURL_san_excludes_common_name`: a server that presents the
certificate of the scenario, the map ranged over in insertion order. -/
theorem processURL_san_excludes_common_name_witness :
    (processURL
      (fun _ => { resp := some { TLS := some { PeerCertificates :=
        [{ CommonName := "api.example.com",
           DNSNames := ["api.example.com", "www.example.com"] }] } },
                  err := none })
      id "https://api.example.com,").pushed =
        [["https://api.example.com", "api.example.com", "www.example.com"]] := by
  have h := processURL_san_excludes_common_name
    (fun _ => { resp := some { TLS := some { PeerCertificates :=
        [{ CommonName := "api.example.com",
           DNSNames := ["api.example.com", "www.example.com"] }] } },
                err := none })
    id "https://api.example.com,"
    { PeerCertificates := [{ CommonName := "api.example.com",
                             DNSNames := ["api.example.com", "www.example.com"] }] }
    { CommonName := "api.example.com", DNSNames := ["api.example.com", "www.example.com"] }
    [] (fun keys => List.Perm.refl keys) rfl rfl
  rw [h.1, h.2.2]
  decide

/-- Claim C2: the SAN names joined into the record have no duplicates and are
exactly the DNS names of the leaf certificate that differ from the common name:
each of those occurs exactly once and no other name occurs. -/
theorem processURL_san_names_exact
    (clientGet : String → GetResult) (ro : RangeOrder) (url : String)
    (cs : ConnectionState) (cert : Certificate) (rest : List Certificate)
    (hro : IsRangeOrder ro)
    (hfetch : getCertInfo clientGet (cleanURL url) = CertInfoResult.returned (some cs) none)
    (hleaf : cs.PeerCertificates = cert :: rest) :
    (processURL clientGet ro url).pushed =
        [[cleanURL url, cert.CommonName, Join (uniqueSANs ro cert) "\n"]] ∧
    (uniqueSANs ro cert).Nodup ∧
    (∀ n, n ∈ uniqueSANs ro cert ↔ n ∈ cert.DNSNames ∧ n ≠ cert.CommonName) ∧
    (∀ n, n ∈ cert.DNSNames → n ≠ cert.CommonName → (uniqueSANs ro cert).count n = 1) := by
  refine ⟨?_, uniqueSANs_nodup ro cert hro, mem_uniqueSANs ro cert hro, ?_⟩
  · rw [processURL_pushed_of_leaf clientGet ro url cs cert rest hfetch hleaf]
  · intro n hn hne
    exact List.count_eq_one_of_mem (uniqueSANs_nodup ro cert hro)
      ((mem_uniqueSANs ro cert hro n).mpr ⟨hn, hne⟩)

/-- Witness of `processURL_san_names_exact`: a certificate that repeats a DNS
name and lists its common name, the map ranged over in reverse order. -/
theorem processURL_san_names_exact_witness :
    (uniqueSANs List.reverse
      { CommonName := "a.example",
        DNSNames := ["b.example", "a.example", "b.example", "c.example"] }).Nodup ∧
    (uniqueSANs List.reverse
      { CommonName := "a.example",
        DNSNames := ["b.example", "a.example", "b.example", "c.example"] }).count "b.example"
      = 1 := by
  have h := processURL_san_names_exact
    (fun _ => { resp := some { TLS := some { PeerCertificates :=
        [{ CommonName := "a.example",
           DNSNames := ["b.example", "a.example", "b.example", "c.example"] }] } },
                err := none })
    List.reverse "https://a.example"
    { PeerCertificates := [{ CommonName := "a.example",
                             DNSNames := ["b.example", "a.example", "b.example", "c.example"] }] }
    { CommonName := "a.example",
      DNSNames := ["b.example", "a.example", "b.example", "c.example"] }
    [] (fun keys => List.reverse_perm keys) rfl rfl
  exact ⟨h.2.1, h.2.2.2 "b.example" (by decide) (by decide)⟩

/-! ## Claims about the outcome of `processURL` -/

theorem processURL_of_error (clientGet : String → GetResult) (ro : RangeOrder) (url : String)
    (state : Option ConnectionState) (err : String)
    (hfetch : getCertInfo clientGet (cleanURL url) = CertInfoResult.returned state (some err)) :
    processURL clientGet ro url =
      { printed := [errorLine (cleanURL url) err], pushed := [], panicked := false } := by
  unfold processURL
  simp only [hfetch, errorLine]

theorem processURL_of_no_state (clientGet : String → GetResult) (ro : RangeOrder) (url : String)
    (hfetch : getCertInfo clientGet (cleanURL url) = CertInfoResult.returned none none) :
    processURL clientGet ro url = { printed := [], pushed := [], panicked := false } := by
  unfold processURL
  simp only [hfetch]

theorem processURL_of_no_certificate (clientGet : String → GetResult) (ro : RangeOrder)
    (url : String) (cs : ConnectionState)
    (hfetch : getCertInfo clientGet (cleanURL url) = CertInfoResult.returned (some cs) none)
    (hnone : cs.PeerCertificates = []) :
    processURL clientGet ro url = { printed := [], pushed := [], panicked := false } := by
  unfold processURL
  simp only [hfetch, hnone]

theorem processURL_of_nilDeref (clientGet : String → GetResult) (ro : RangeOrder) (url : String)
    (hfetch : getCertInfo clientGet (cleanURL url) = CertInfoResult.nilDeref) :
    processURL clientGet ro url = { printed := [], pushed := [], panicked := true } := by
  unfold processURL
  simp only [hfetch]

/-- Claim C6, as the code has it: `processURL` never both pushes a record and
prints a diagnostic, and it pushes at most one record and prints at most one
line. An error gives one diagnostic and no record; a connection state with at
least one peer certificate gives exactly one record and no diagnostic; a nil
connection state without error and a connection state with zero peer
certificates give neither. -/
theorem processURL_outcome (clientGet : String → GetResult) (ro : RangeOrder) (url : String) :
    (processURL clientGet ro url).pushed.length + (processURL clientGet ro url).printed.length ≤ 1 ∧
    (∀ state err, getCertInfo clientGet (cleanURL url) = CertInfoResult.returned state (some err) →
      (processURL clientGet ro url).pushed = [] ∧
      (processURL clientGet ro url).printed = [errorLine (cleanURL url) err]) ∧
    (∀ cs cert rest,
      getCertInfo clientGet (cleanURL url) = CertInfoResult.returned (some cs) none →
      cs.PeerCertificates = cert :: rest →
      (processURL clientGet ro url).pushed = [certRecord ro (cleanURL url) cert] ∧
      (processURL clientGet ro url).printed = []) ∧
    (getCertInfo clientGet (cleanURL url) = CertInfoResult.returned none none →
      (processURL clientGet ro url).pushed = [] ∧ (processURL clientGet ro url).printed = []) ∧
    (∀ cs, getCertInfo clientGet (cleanURL url) = CertInfoResult.returned (some cs) none →
      cs.PeerCertificates = [] →
      (processURL clientGet ro url).pushed = [] ∧ (processURL clientGet ro url).printed = []) := by
  refine ⟨?_, ?_, ?_, ?_, ?_⟩
  · cases hres : getCertInfo clientGet (cleanURL url) with
    | nilDeref =>
      rw [processURL_of_nilDeref clientGet ro url hres]
      simp
    | returned state err =>
      cases err with
      | some e =>
        rw [processURL_of_error clientGet ro url state e hres]
        simp
      | none =>
        cases state with
        | none =>
          rw [processURL_of_no_state clientGet ro url hres]
          simp
        | some cs =>
          cases hpc : cs.PeerCertificates with
          | nil =>
            rw [processURL_of_no_certificate clientGet ro url cs hres hpc]
            simp
          | cons cert rest =>
            rw [processURL_pushed_of_leaf clientGet ro url cs cert rest hres hpc]
            simp
  · intro state err hfetch
    rw [processURL_of_error clientGet ro url state err hfetch]
    exact ⟨rfl, rfl⟩
  · intro cs cert rest hfetch hleaf
    rw [processURL_pushed_of_leaf clientGet ro url cs cert rest hfetch hleaf]
    exact ⟨rfl, rfl⟩
  · intro hfetch
    rw [processURL_of_no_state clientGet ro url hfetch]
    exact ⟨rfl, rfl⟩
  · intro cs hfetch hnone
    rw [processURL_of_no_certificate clientGet ro url cs hfetch hnone]
    exact ⟨rfl, rfl⟩

/-- Witness of `processURL_outcome`: a handshake that presents no certificate
gives neither a record nor a diagnostic. -/
theorem processURL_outcome_witness :
    (processURL (fun _ => { resp := some { TLS := some { PeerCertificates := [] } },
                            err := none }) id "https://empty.example").pushed = [] ∧
    (processURL (fun _ => { resp := some { TLS := some { PeerCertificates := [] } },
                            err := none }) id "https://empty.example").printed = [] :=
  (processURL_outcome (fun _ => { resp := some { TLS := some { PeerCertificates := [] } },
                                  err := none }) id "https://empty.example").2.2.2.2
    { PeerCertificates := [] } rfl rfl

/-- Claim C6 fails as stated: when the fetch gives no connection state and no
error (a response over plain HTTP), and likewise when the connection state has
zero peer certificates, `processURL` pushes no record and logs nothing, which
is neither of the two outcomes. -/
theorem processURL_silent_skip :
    ¬ (∀ (clientGet : String → GetResult) (ro : RangeOrder) (url : String),
        exactlyOneOutcome (processURL clientGet ro url) = true) := by
  intro h
  exact absurd
    (h (fun _ => { resp := some { TLS := none }, err := none }) id "http://plain.example")
    (by decide)

/-! ## Claims about `getCertInfo` -/

/-- Claim C8, as the code has it: when the request returned an error and no TLS
connection state is available (response absent, or its `TLS` nil),
`getCertInfo` returns that error, and `processURL` prints the diagnostic for
the URL and pushes no record; when the request returned no error and a response
whose `TLS` is nil, `getCertInfo` returns neither a state nor an error, and
`processURL` prints nothing and pushes no record. -/
theorem getCertInfo_without_tls_state (clientGet : String → GetResult) (ro : RangeOrder)
    (url : String) (hno : noTLSState (clientGet (cleanURL url)) = true) :
    (∀ err, (clientGet (cleanURL url)).err = some err →
      getCertInfo clientGet (cleanURL url) = CertInfoResult.returned none (some err) ∧
      processURL clientGet ro url =
        { printed := [errorLine (cleanURL url) err], pushed := [], panicked := false }) ∧
    ((clientGet (cleanURL url)).err = none →
      (clientGet (cleanURL url)).resp = some { TLS := none } →
      getCertInfo clientGet (cleanURL url) = CertInfoResult.returned none none ∧
      processURL clientGet ro url = { printed := [], pushed := [], panicked := false }) := by
  constructor
  · intro err herr
    have hret : getCertInfo clientGet (cleanURL url)
        = CertInfoResult.returned none (some err) := by
      unfold getCertInfo
      simp only [herr]
      cases hresp : (clientGet (cleanURL url)).resp with
      | none => rfl
      | some resp =>
        cases htls : resp.TLS with
        | none => simp only [htls]
        | some tls =>
          simp [noTLSState, hresp, htls] at hno
    exact ⟨hret, processURL_of_error clientGet ro url none err hret⟩
  · intro herr hresp
    have hret : getCertInfo clientGet (cleanURL url) = CertInfoResult.returned none none := by
      unfold getCertInfo
      simp only [herr, hresp]
    exact ⟨hret, processURL_of_no_state clientGet ro url hret⟩

/-- Witness of `getCertInfo_without_tls_state`: a refused connection. -/
theorem getCertInfo_without_tls_state_witness :
    noTLSState ((fun _ => { resp := none, err := some "connection refused" } :
      String → GetResult) (cleanURL "https://down.example,")) = true ∧
    processURL (fun _ => { resp := none, err := some "connection refused" }) id
        "https://down.example," =
      { printed := ["Error processing URL https://down.example: connection refused\n"],
        pushed := [], panicked := false } :=
  ⟨rfl,
   ((getCertInfo_without_tls_state (fun _ => { resp := none, err := some "connection refused" })
      id "https://down.example," rfl).1 "connection refused" rfl).2.trans (by decide)⟩

/-- Claim C8 fails as stated: a request that succeeds over plain HTTP gives a
response whose `TLS` is nil; `getCertInfo` then returns no error, and
`processURL` prints no diagnostic. -/
theorem getCertInfo_nil_state_without_error :
    ¬ (∀ (clientGet : String → GetResult) (ro : RangeOrder) (url : String),
        noTLSState (clientGet (cleanURL url)) = true →
        (∃ err, getCertInfo clientGet (cleanURL url) = CertInfoResult.returned none (some err)) ∧
        (processURL clientGet ro url).printed ≠ [] ∧
        (processURL clientGet ro url).pushed = []) := by
  intro h
  have hcase := h (fun _ => { resp := some { TLS := none }, err := none }) id
    "http://plain.example" rfl
  exact hcase.2.1 (by decide)

/-- The branch of lines 59-62 read on its own: were `client.Get` to return an
error together with a response that carries a TLS connection state,
`getCertInfo` would return that state and no error. -/
theorem getCertInfo_error_with_state (clientGet : String → GetResult) (u err : String)
    (tls : ConnectionState)
    (hget : clientGet u = { resp := some { TLS := some tls }, err := some err }) :
    getCertInfo clientGet u = CertInfoResult.returned (some tls) none := by
  unfold getCertInfo
  simp only [hget]

/-- With the client of lines 46-56 an error never comes with a response, so the
branch of lines 60-62 is never taken. -/
theorem clientGetResult_error_without_response (a : RequestAttempt) (err : String)
    (herr : (clientGetResult a).err = some err) :
    (clientGetResult a).resp = none ∧ a.failure = some err := by
  unfold clientGetResult at herr ⊢
  cases hf : a.failure with
  | none => simp [hf] at herr
  | some e =>
    simp only [hf, Option.some.injEq] at herr ⊢
    exact ⟨trivial, herr⟩

/-- Claim C10, as the code has it: two runs of the extraction step on the same
URL and leaf certificate give records with the same cleaned URL and the same
common name, and SAN fields that join the same duplicate-free names, possibly
in different orders; the two records are identical when at most one SAN name is
left after the common name is removed. -/
theorem certRecord_same_up_to_order (ro1 ro2 : RangeOrder) (url : String) (cert : Certificate)
    (h1 : IsRangeOrder ro1) (h2 : IsRangeOrder ro2) :
    certRecord ro1 (cleanURL url) cert =
      [cleanURL url, cert.CommonName, Join (uniqueSANs ro1 cert) "\n"] ∧
    certRecord ro2 (cleanURL url) cert =
      [cleanURL url, cert.CommonName, Join (uniqueSANs ro2 cert) "\n"] ∧
    (uniqueSANs ro1 cert).Perm (uniqueSANs ro2 cert) ∧
    ((uniqueSANs ro1 cert).length ≤ 1 →
      certRecord ro1 (cleanURL url) cert = certRecord ro2 (cleanURL url) cert) ∧
    (uniqueSANs ro1 cert).Nodup ∧ (uniqueSANs ro2 cert).Nodup := by
  have hperm : (uniqueSANs ro1 cert).Perm (uniqueSANs ro2 cert) :=
    (uniqueSANs_perm ro1 cert h1).trans (uniqueSANs_perm ro2 cert h2).symm
  refine ⟨rfl, rfl, hperm, fun hlen => ?_, uniqueSANs_nodup ro1 cert h1,
    uniqueSANs_nodup ro2 cert h2⟩
  have heq : uniqueSANs ro1 cert = uniqueSANs ro2 cert := by
    cases hl : uniqueSANs ro1 cert with
    | nil =>
      rw [hl] at hperm
      exact (List.nil_perm.mp hperm).symm
    | cons a tl =>
      cases tl with
      | nil =>
        rw [hl] at hperm
        exact (List.perm_singleton.mp hperm.symm).symm
      | cons b tl2 =>
        rw [hl] at hlen
        simp at hlen
  unfold certRecord
  rw [heq]

/-- Witness of `certRecord_same_up_to_order`: insertion order against reverse
order on a certificate with two remaining SAN names. -/
theorem certRecord_same_up_to_order_witness :
    (uniqueSANs id { CommonName := "a.example", DNSNames := ["b.example", "c.example"] }).Perm
      (uniqueSANs List.reverse
        { CommonName := "a.example", DNSNames := ["b.example", "c.example"] }) :=
  (certRecord_same_up_to_order id List.reverse "https://a.example"
    { CommonName := "a.example", DNSNames := ["b.example", "c.example"] }
    (fun keys => List.Perm.refl keys) (fun keys => List.reverse_perm keys)).2.2.1

/-- Claim C10 fails as stated: the order of `range` over the map is not fixed,
and for DNS names `["b.example", "c.example"]` two admissible orders give the SAN
fields `"b.example\nc.example"` and `"c.example\nb.example"`. -/
theorem certRecord_depends_on_range_order :
    ¬ (∀ (ro1 ro2 : RangeOrder) (url : String) (cert : Certificate),
        IsRangeOrder ro1 → IsRangeOrder ro2 →
        certRecord ro1 (cleanURL url) cert = certRecord ro2 (cleanURL url) cert) := by
  intro h
  have hcase := h id List.reverse "https://a.example"
    { CommonName := "a.example", DNSNames := ["b.example", "c.example"] }
    (fun keys => List.Perm.refl keys) (fun keys => List.reverse_perm keys)
  exact absurd hcase (by decide)

/-! ## Facts about the pattern `https://[^\s]+` -/

theorem takeWhile_run (run rest : List Char)
    (hall : ∀ c ∈ run, isSpaceClass c = false)
    (hstop : ∀ c tl, rest = c :: tl → isSpaceClass c = true) :
    (run ++ rest).takeWhile (fun c => !isSpaceClass c) = run := by
  induction run with
  | nil =>
    cases rest with
    | nil => rfl
    | cons c tl =>
      have hc := hstop c tl rfl
      simp [List.takeWhile_cons, hc]
  | cons a run ih =>
    have ha := hall a (List.mem_cons_self a run)
    have ih2 := ih (fun c hc => hall c (List.mem_cons_of_mem a hc))
    simp [List.takeWhile_cons, ha, ih2]

theorem urlLiteral_isPrefixOf_iff (s : List Char) :
    urlLiteral.isPrefixOf s = true ↔ ∃ t, s = urlLiteral ++ t := by
  rw [ List.isPrefixOf_iff_prefix]
  constructor
  · rintro ⟨t, ht⟩
    exact ⟨t, ht.symm⟩
  · rintro ⟨t, ht⟩
    exact ⟨t, ht.symm⟩

theorem matchHere_append (t : List Char) :
    matchHere (urlLiteral ++ t) =
      match t.takeWhile (fun c => !isSpaceClass c) with
      | [] => none
      | c :: run => some (urlLiteral ++ c :: run) := by
  unfold matchHere
  rw [if_pos ((urlLiteral_isPrefixOf_iff _).mpr ⟨t, rfl⟩), List.drop_left]

theorem matchHere_eq_some_iff (s m : List Char) :
    matchHere s = some m ↔
      ∃ run rest, s = urlLiteral ++ (run ++ rest) ∧ run ≠ [] ∧
        (∀ c ∈ run, isSpaceClass c = false) ∧
        (∀ c tl, rest = c :: tl → isSpaceClass c = true) ∧
        m = urlLiteral ++ run := by
  constructor
  · intro h
    by_cases hp : urlLiteral.isPrefixOf s = true
    · obtain ⟨t, rfl⟩ := (urlLiteral_isPrefixOf_iff s).mp hp
      rw [matchHere_append] at h
      cases htw : t.takeWhile (fun c => !isSpaceClass c) with
      | nil => rw [htw] at h; exact Option.noConfusion h
      | cons c run =>
        rw [htw] at h
        refine ⟨c :: run, t.dropWhile (fun c => !isSpaceClass c), ?_, ?_, ?_, ?_, ?_⟩
        · rw [← htw, List.takeWhile_append_dropWhile]
        · exact List.cons_ne_nil c run
        · intro d hd
          have hmem : d ∈ t.takeWhile (fun c => !isSpaceClass c) := by rw [htw]; exact hd
          have := List.mem_takeWhile_imp hmem
          simpa using this
        · intro d tl hd
          have hhead := List.head?_dropWhile_not (fun c => !isSpaceClass c) t
          rw [hd] at hhead
          simpa using hhead
        · exact (Option.some.inj h).symm
    · unfold matchHere at h
      rw [if_neg hp] at h
      exact Option.noConfusion h
  · rintro ⟨run, rest, rfl, hne, hall, hstop, rfl⟩
    rw [matchHere_append, takeWhile_run run rest hall hstop]
    cases run with
    | nil => exact absurd rfl hne
    | cons c run => rfl

theorem matchHere_eq_none_iff (s : List Char) :
    matchHere s = none ↔ ¬ MatchesAfter [] s := by
  constructor
  · rintro h ⟨c, rest, rfl, hc⟩
    rw [List.nil_append, matchHere_append] at h
    simp [List.takeWhile_cons, hc] at h
  · intro h
    cases hm : matchHere s with
    | none => rfl
    | some m =>
      exfalso
      obtain ⟨run, rest, rfl, hne, hall, -, -⟩ := (matchHere_eq_some_iff s m).mp hm
      cases run with
      | nil => exact hne rfl
      | cons c run =>
        exact h ⟨c, run ++ rest, by simp, hall c (List.mem_cons_self c run)⟩

theorem matchesAfter_cons_iff (c : Char) (pre cs : List Char) :
    MatchesAfter (c :: pre) (c :: cs) ↔ MatchesAfter pre cs := by
  constructor
  · rintro ⟨d, rest, heq, hd⟩
    exact ⟨d, rest, by simpa using heq, hd⟩
  · rintro ⟨d, rest, heq, hd⟩
    exact ⟨d, rest, by simp [heq], hd⟩

theorem matchesAfter_cases (pre : List Char) (c : Char) (cs : List Char)
    (h : MatchesAfter pre (c :: cs)) :
    pre = [] ∨ ∃ pre2, pre = c :: pre2 ∧ MatchesAfter pre2 cs := by
  cases pre with
  | nil => exact Or.inl rfl
  | cons d pre2 =>
    right
    obtain ⟨e, rest, heq, he⟩ := h
    have hd : c = d := by
      have := List.head_eq_of_cons_eq heq
      exact this
    subst hd
    exact ⟨pre2, rfl, (matchesAfter_cons_iff c pre2 cs).mp ⟨e, rest, heq, he⟩⟩

theorem not_matchesAfter_nil (pre : List Char) : ¬ MatchesAfter pre [] := by
  rintro ⟨c, rest, heq, -⟩
  have hlen := congrArg List.length heq
  simp [urlLiteral] at hlen
  omega

theorem isLeftmostMatch_of_matchHere (s m : List Char) (h : matchHere s = some m) :
    IsLeftmostMatch s m := by
  obtain ⟨run, rest, hs, hne, hall, hstop, hm⟩ := (matchHere_eq_some_iff s m).mp h
  exact ⟨[], run, rest, by simpa using hs, hne, hall, hstop,
    fun pre2 _ => Nat.zero_le _, hm⟩

theorem matchHere_of_isLeftmostMatch (s m : List Char) (h : IsLeftmostMatch s m)
    (h0 : MatchesAfter [] s) : matchHere s = some m := by
  obtain ⟨pre, run, rest, hs, hne, hall, hstop, hleft, hm⟩ := h
  have hpre : pre = [] := List.eq_nil_of_length_eq_zero (Nat.le_zero.mp (hleft [] h0))
  subst hpre
  exact (matchHere_eq_some_iff s m).mpr ⟨run, rest, by simpa using hs, hne, hall, hstop, hm⟩

theorem isLeftmostMatch_cons_iff (c : Char) (cs m : List Char)
    (h0 : ¬ MatchesAfter [] (c :: cs)) :
    IsLeftmostMatch (c :: cs) m ↔ IsLeftmostMatch cs m := by
  constructor
  · rintro ⟨pre, run, rest, hs, hne, hall, hstop, hleft, hm⟩
    cases pre with
    | nil =>
      exfalso
      cases run with
      | nil => exact hne rfl
      | cons r run =>
        exact h0 ⟨r, run ++ rest, by simpa using hs, hall r (List.mem_cons_self r run)⟩
    | cons d pre2 =>
      have hd : c = d := List.head_eq_of_cons_eq hs
      subst hd
      refine ⟨pre2, run, rest, by simpa using hs, hne, hall, hstop, ?_, hm⟩
      intro pre3 h3
      have := hleft (c :: pre3) ((matchesAfter_cons_iff c pre3 cs).mpr h3)
      simpa using this
  · rintro ⟨pre, run, rest, hs, hne, hall, hstop, hleft, hm⟩
    refine ⟨c :: pre, run, rest, by simp [hs], hne, hall, hstop, ?_, hm⟩
    intro pre3 h3
    rcases matchesAfter_cases pre3 c cs h3 with hnil | ⟨pre4, hp, h4⟩
    · subst hnil
      exact absurd h3 h0
    · subst hp
      have := hleft pre4 h4
      simpa using this

theorem hasMatch_cons_iff (c : Char) (cs : List Char) (h0 : ¬ MatchesAfter [] (c :: cs)) :
    HasMatch (c :: cs) ↔ HasMatch cs := by
  constructor
  · rintro ⟨pre, hp⟩
    rcases matchesAfter_cases pre c cs hp with hnil | ⟨pre2, -, h2⟩
    · subst hnil
      exact absurd hp h0
    · exact ⟨pre2, h2⟩
  · rintro ⟨pre, hp⟩
    exact ⟨c :: pre, (matchesAfter_cons_iff c pre cs).mpr hp⟩

theorem findMatch_eq_some_iff (line m : List Char) :
    findMatch line = some m ↔ IsLeftmostMatch line m := by
  induction line with
  | nil =>
    constructor
    · intro h
      exact Option.noConfusion h
    · rintro ⟨pre, run, rest, hs, -, -, -, -, -⟩
      exfalso
      have hlen := congrArg List.length hs
      simp [urlLiteral] at hlen
      omega
  | cons c cs ih =>
    unfold findMatch
    cases hm : matchHere (c :: cs) with
    | some m0 =>
      have h0 : MatchesAfter [] (c :: cs) := by
        by_contra hc
        rw [(matchHere_eq_none_iff (c :: cs)).mpr hc] at hm
        exact Option.noConfusion hm
      constructor
      · intro h
        have hmm : m0 = m := Option.some.inj h
        subst hmm
        exact isLeftmostMatch_of_matchHere (c :: cs) m0 hm
      · intro h
        have := matchHere_of_isLeftmostMatch (c :: cs) m h h0
        rw [hm] at this
        exact this
    | none =>
      have h0 := (matchHere_eq_none_iff (c :: cs)).mp hm
      show findMatch cs = some m ↔ IsLeftmostMatch (c :: cs) m
      rw [ih, isLeftmostMatch_cons_iff c cs m h0]

theorem findMatch_eq_none_iff (line : List Char) :
    findMatch line = none ↔ ¬ HasMatch line := by
  induction line with
  | nil =>
    constructor
    · rintro - ⟨pre, hp⟩
      exact not_matchesAfter_nil pre hp
    · intro _
      rfl
  | cons c cs ih =>
    unfold findMatch
    cases hm : matchHere (c :: cs) with
    | some m0 =>
      have h0 : MatchesAfter [] (c :: cs) := by
        by_contra hc
        rw [(matchHere_eq_none_iff (c :: cs)).mpr hc] at hm
        exact Option.noConfusion hm
      constructor
      · intro h
        exact Option.noConfusion h
      · intro h
        exact absurd ⟨[], h0⟩ h
    | none =>
      have h0 := (matchHere_eq_none_iff (c :: cs)).mp hm
      show findMatch cs = none ↔ ¬ HasMatch (c :: cs)
      rw [ih, hasMatch_cons_iff c cs h0]

/-! ## Claims about `extractURLs` -/

theorem scanLoop_foldl (lines acc : List String) :
    lines.foldl
      (fun urls line => if MatchString line then urls ++ [FindString line] else urls) acc
      = acc ++ scanLoop lines := by
  induction lines generalizing acc with
  | nil => simp [scanLoop]
  | cons line lines ih =>
    unfold scanLoop
    rw [List.foldl_cons, List.foldl_cons, ih, ih (if MatchString line then _ else _)]
    by_cases hm : MatchString line = true
    · simp [hm]
    · simp [hm]

theorem scanLoop_cons (line : String) (lines : List String) :
    scanLoop (line :: lines) =
      if MatchString line then FindString line :: scanLoop lines else scanLoop lines := by
  have h := scanLoop_foldl lines (if MatchString line then [FindString line] else [])
  unfold scanLoop at h ⊢
  rw [List.foldl_cons]
  by_cases hm : MatchString line = true
  · simpa [hm] using h
  · simp [hm]

theorem extractedFrom_scanLoop (lines : List String) : ExtractedFrom lines (scanLoop lines) := by
  induction lines with
  | nil => exact ExtractedFrom.done
  | cons line lines ih =>
    rw [scanLoop_cons]
    cases hf : findMatch line.data with
    | none =>
      have hm : MatchString line = false := by simp [MatchString, hf]
      rw [hm]
      exact ExtractedFrom.skip line lines _ ((findMatch_eq_none_iff line.data).mp hf) ih
    | some m =>
      have hm : MatchString line = true := by simp [MatchString, hf]
      have hs : FindString line = String.mk m := by simp [FindString, hf]
      rw [hm, hs]
      exact ExtractedFrom.hit line (String.mk m) lines _
        ((findMatch_eq_some_iff line.data m).mp hf) ih

theorem extractedFrom_unique (lines urls : List String) (h : ExtractedFrom lines urls) :
    urls = scanLoop lines := by
  induction h with
  | done => rfl
  | hit line m lines urls hmatch _ ih =>
    have hf := (findMatch_eq_some_iff line.data m.data).mpr hmatch
    have hm : MatchString line = true := by simp [MatchString, hf]
    have hs : FindString line = m := by simp [FindString, hf]
    rw [scanLoop_cons, hm, hs, ih]
    rfl
  | skip line lines urls hno _ ih =>
    have hf := (findMatch_eq_none_iff line.data).mpr hno
    have hm : MatchString line = false := by simp [MatchString, hf]
    rw [scanLoop_cons, hm, ih]
    rfl

/-- Claim C4: for a file that opens and scans without error, seen as its
sequence of lines, `extractURLs` returns a URL sequence, and this sequence is
the one and only sequence that holds, in line order, the leftmost match of
`https://` followed by a maximal non-empty run of non-whitespace characters for
each line that has such a match, and nothing for the other lines; for the lines
`visit https://good.example/path,` and `skip this line` the result is exactly
`["https://good.example/path,"]`. -/
theorem extractURLs_spec (osOpen : String → Except String ScannedFile) (filename : String)
    (file : ScannedFile) (hopen : osOpen filename = Except.ok file)
    (hscan : file.scanErr = none) :
    (∃ urls, extractURLs osOpen filename = Except.ok urls ∧
      ∀ urls2, ExtractedFrom file.lines urls2 ↔ urls2 = urls) ∧
    extractURLs
      (fun _ => Except.ok
        { lines := ["visit https://good.example/path,", "skip this line"], scanErr := none })
      "urls.txt" = Except.ok ["https://good.example/path,"] := by
  have hex : scanLoop ["visit https://good.example/path,", "skip this line"]
      = ["https://good.example/path,"] := by decide
  refine ⟨⟨scanLoop file.lines, ?_, fun urls2 => ⟨?_, ?_⟩⟩, congrArg Except.ok hex⟩
  · unfold extractURLs
    simp only [hopen, hscan]
  · exact extractedFrom_unique file.lines urls2
  · rintro rfl
    exact extractedFrom_scanLoop file.lines

/-- Witness of `extractURLs_spec`: a file with a URL after text, a line without
URL, a line with two URLs, and a line whose `https://` is followed by a blank. -/
theorem extractURLs_spec_witness :
    extractURLs
      (fun _ => Except.ok
        { lines := ["visit https://good.example/path,", "skip this line",
                    "https://a.example https://b.example", "https:// c.example"],
          scanErr := none })
      "urls.txt" = Except.ok ["https://good.example/path,", "https://a.example"] ∧
    ExtractedFrom
      ["visit https://good.example/path,", "skip this line",
       "https://a.example https://b.example", "https:// c.example"]
      ["https://good.example/path,", "https://a.example"] := by
  have h := (extractURLs_spec
    (fun _ => Except.ok
      { lines := ["visit https://good.example/path,", "skip this line",
                  "https://a.example https://b.example", "https:// c.example"],
        scanErr := none })
    "urls.txt"
    { lines := ["visit https://good.example/path,", "skip this line",
                "https://a.example https://b.example", "https:// c.example"],
      scanErr := none }
    rfl rfl).1
  obtain ⟨urls, hret, hiff⟩ := h
  have hval : scanLoop ["visit https://good.example/path,", "skip this line",
      "https://a.example https://b.example", "https:// c.example"]
      = ["https://good.example/path,", "https://a.example"] := by decide
  have hurls : urls = ["https://good.example/path,", "https://a.example"] := by
    have hret2 : Except.ok (scanLoop ["visit https://good.example/path,", "skip this line",
        "https://a.example https://b.example", "https:// c.example"])
        = (Except.ok urls : Except String (List String)) := hret
    rw [hval] at hret2
    exact (Except.ok.inj hret2).symm
  subst hurls
  exact ⟨hret, (hiff _).mpr rfl⟩

/-! ## Claims about the dispatcher -/

theorem countP_set_running (tasks : List (String × TaskPhase)) (i : Nat)
    (old new : String × TaskPhase) (h : tasks.get? i = some old) :
    (tasks.set i new).countP (fun t => decide (t.2 = TaskPhase.running))
        + (if old.2 = TaskPhase.running then 1 else 0)
      = tasks.countP (fun t => decide (t.2 = TaskPhase.running))
        + (if new.2 = TaskPhase.running then 1 else 0) := by
  induction tasks generalizing i with
  | nil => simp at h
  | cons t rest ih =>
    cases i with
    | zero =>
      have ht : t = old := by simpa using h
      subst ht
      simp only [List.set_cons_zero, List.countP_cons, decide_eq_true_eq]
      omega
    | succ j =>
      have hj : rest.get? j = some old := by simpa using h
      have := ih j hj
      simp only [List.set_cons_succ, List.countP_cons]
      omega

theorem dispatchInv_init (threads : Nat) (urls : List String) :
    DispatchInv threads (initState urls) := by
  simp [DispatchInv, initState, inFlight, permitInHand]

theorem dispatchInv_step (threads : Nat) (s t : DispatchState) (a : Action)
    (hinv : DispatchInv threads s) (hstep : step threads s a = some t) :
    DispatchInv threads t := by
  obtain ⟨hsem, hcap⟩ := hinv
  cases a with
  | dispatcher =>
    unfold step at hstep
    cases hpc : s.pc with
    | loopHead =>
      rw [hpc] at hsem
      simp only [hpc] at hstep
      cases hp : s.pending with
      | nil =>
        simp only [hp, Option.some.injEq] at hstep
        subst hstep
        exact ⟨by simpa [inFlight, permitInHand] using hsem, hcap⟩
      | cons url rest =>
        simp only [hp, Option.some.injEq] at hstep
        subst hstep
        exact ⟨by simpa [inFlight, permitInHand] using hsem, hcap⟩
    | added url =>
      rw [hpc] at hsem
      simp only [hpc] at hstep
      by_cases hlt : s.sem < threads
      · simp only [hlt, if_true, Option.some.injEq] at hstep
        subst hstep
        refine ⟨?_, hlt⟩
        simp only [inFlight, permitInHand] at hsem ⊢
        omega
      · simp [hlt] at hstep
    | acquired url =>
      rw [hpc] at hsem
      simp only [hpc, Option.some.injEq] at hstep
      subst hstep
      refine ⟨?_, hcap⟩
      simp only [inFlight, permitInHand, List.countP_append, List.countP_cons,
        List.countP_nil, decide_True, if_true] at hsem ⊢
      omega
    | waiting =>
      rw [hpc] at hsem
      simp only [hpc] at hstep
      by_cases hwg : s.wg = 0
      · simp only [hwg, if_true, Option.some.injEq] at hstep
        subst hstep
        exact ⟨by simpa [inFlight, permitInHand] using hsem, hcap⟩
      · simp [hwg] at hstep
    | closing =>
      rw [hpc] at hsem
      simp only [hpc, Option.some.injEq] at hstep
      subst hstep
      exact ⟨by simpa [inFlight, permitInHand] using hsem, hcap⟩
    | finished =>
      simp [hpc] at hstep
  | task i =>
    unfold step at hstep
    cases hget : s.tasks.get? i with
    | none => simp only [hget, reduceCtorEq] at hstep
    | some entry =>
      obtain ⟨url, phase⟩ := entry
      cases phase with
      | running =>
        simp only [hget] at hstep
        by_cases hpos : 0 < s.sem
        · simp only [hpos, if_true, Option.some.injEq] at hstep
          subst hstep
          have hcount := countP_set_running s.tasks i (url, TaskPhase.running)
            (url, TaskPhase.released) hget
          simp only [if_true] at hcount
          have hfalse : ((url, TaskPhase.released).2 = TaskPhase.running) = False := by
            simp
          simp only [hfalse, if_false] at hcount
          refine ⟨?_, by show s.sem - 1 ≤ threads; omega⟩
          show List.countP _ (s.tasks.set i (url, TaskPhase.released)) + permitInHand s.pc
            = s.sem - 1
          unfold inFlight at hsem
          omega
        · simp [hpos] at hstep
      | released =>
        simp only [hget, Option.some.injEq] at hstep
        subst hstep
        have hcount := countP_set_running s.tasks i (url, TaskPhase.released)
          (url, TaskPhase.exited) hget
        have hf1 : ((url, TaskPhase.released).2 = TaskPhase.running) = False := by simp
        have hf2 : ((url, TaskPhase.exited).2 = TaskPhase.running) = False := by simp
        simp only [hf1, hf2, if_false] at hcount
        refine ⟨?_, hcap⟩
        show List.countP _ (s.tasks.set i (url, TaskPhase.exited)) + permitInHand s.pc = s.sem
        unfold inFlight at hsem
        omega
      | exited => simp only [hget, reduceCtorEq] at hstep

theorem dispatchInv_runSchedule (threads : Nat) (schedule : List Action) (s t : DispatchState)
    (hinv : DispatchInv threads s) (hrun : runSchedule threads s schedule = some t) :
    DispatchInv threads t := by
  induction schedule generalizing s with
  | nil =>
    have hst : s = t := by simpa [runSchedule] using hrun
    subst hst
    exact hinv
  | cons a rest ih =>
    unfold runSchedule at hrun
    cases hstep : step threads s a with
    | none => simp [hstep] at hrun
    | some u =>
      simp only [hstep] at hrun
      exact ih u (dispatchInv_step threads s u a hinv hstep) hrun

/-- Claim C7: with a cap `threads ≥ 1` and any URL sequence, in every state the
dispatcher system can reach, the number of `processURL` tasks that have been
launched and have not yet finished their work by receiving from `sem` is at
most the number of values buffered in `sem`, which is at most `threads`. -/
theorem inFlight_le_threads (threads : Nat) (urls : List String) (s : DispatchState)
    (hthreads : 1 ≤ threads) (hreach : Reachable threads urls s) :
    inFlight s ≤ threads ∧ inFlight s ≤ s.sem ∧ s.sem ≤ threads := by
  obtain ⟨schedule, hrun⟩ := hreach
  have hinv := dispatchInv_runSchedule threads schedule (initState urls) s
    (dispatchInv_init threads urls) hrun
  obtain ⟨hsem, hcap⟩ := hinv
  have hone : 1 ≤ threads := hthreads
  refine ⟨?_, ?_, hcap⟩ <;> omega

/-- Witness of `inFlight_le_threads`: with `threads = 2` and five URLs, six
steps of the dispatcher goroutine launch two tasks; the bound is reached there,
and after `wg.Add(1)` for the third URL the send on `sem` blocks. -/
theorem inFlight_le_threads_witness :
    Reachable 2 ["https://a", "https://b", "https://c", "https://d", "https://e"]
      { pending := ["https://c", "https://d", "https://e"], pc := DispatchPC.loopHead,
        sem := 2, wg := 2,
        tasks := [("https://a", TaskPhase.running), ("https://b", TaskPhase.running)],
        closed := false } ∧
    inFlight
      { pending := ["https://c", "https://d", "https://e"], pc := DispatchPC.loopHead,
        sem := 2, wg := 2,
        tasks := [("https://a", TaskPhase.running), ("https://b", TaskPhase.running)],
        closed := false } = 2 ∧
    step 2
      { pending := ["https://d", "https://e"], pc := DispatchPC.added "https://c",
        sem := 2, wg := 3,
        tasks := [("https://a", TaskPhase.running), ("https://b", TaskPhase.running)],
        closed := false } Action.dispatcher = none := by
  have hreach : Reachable 2 ["https://a", "https://b", "https://c", "https://d", "https://e"]
      { pending := ["https://c", "https://d", "https://e"], pc := DispatchPC.loopHead,
        sem := 2, wg := 2,
        tasks := [("https://a", TaskPhase.running), ("https://b", TaskPhase.running)],
        closed := false } :=
    ⟨[Action.dispatcher, Action.dispatcher, Action.dispatcher,
      Action.dispatcher, Action.dispatcher, Action.dispatcher], by decide⟩
  have hbound := inFlight_le_threads 2
    ["https://a", "https://b", "https://c", "https://d", "https://e"] _ (by decide) hreach
  refine ⟨hreach, Nat.le_antisymm hbound.1 (by decide), by decide⟩

/-- A remark on the granularity of the model: a goroutine that has run its
deferred `<-sem` but not yet its deferred `wg.Done()` no longer holds a permit,
so with `threads = 1` a second task can be launched while the first goroutine
has not exited. Such a goroutine has finished its work and is not in flight. -/
theorem released_goroutine_may_overlap :
    Reachable 1 ["https://a", "https://b"]
      { pending := [], pc := DispatchPC.loopHead, sem := 1, wg := 2,
        tasks := [("https://a", TaskPhase.released), ("https://b", TaskPhase.running)],
        closed := false } ∧
    inFlight
      { pending := [], pc := DispatchPC.loopHead, sem := 1, wg := 2,
        tasks := [("https://a", TaskPhase.released), ("https://b", TaskPhase.running)],
        closed := false } = 1 :=
  ⟨⟨[Action.dispatcher, Action.dispatcher, Action.dispatcher, Action.task 0,
     Action.dispatcher, Action.dispatcher, Action.dispatcher], by decide⟩, by decide⟩

end SslExplorer
